import Mathlib

/-!
# Verification of the haproxy-ingress host registry core

Shallow embedding of `pkg/haproxy/types/host.go`: the `Hosts` registry
(acquire / remove / shrink / commit change-tracking protocol), the `Host`
entity with its ordered path list, and the small value types
(`PathLink`, `HostBackend`, `HostPath`, `HostTLSConfig`).

Go maps with unique string keys are modelled as association lists
(`List (String × _)`) whose keys stay pairwise distinct in every reachable
state; `map[k] = v` is `alInsert` (replace if present, append otherwise),
`delete(m, k)` is `alErase`, lookup is `alFind`.

In Go, `items[h]` and `itemsAdd[h]` hold the *same* `*Host` pointer
whenever a hostname is in both maps (Acquire stores one object in both;
re-acquire overwrites both entries with the new object).  In-place
mutation of a host acquired in the current cycle is therefore visible
through both maps; the value-level model reflects that aliasing by
writing the updated host value through to `itemsAdd` (see
`Hosts.setSSLPassthrough` and `Hosts.modifyHost`).  `itemsDel` never
aliases `items` (a hostname re-enters `items` only through a freshly
created host or through `Shrink`, which deletes the `itemsDel` entry),
so removed snapshots are never written through.
-/

namespace HAProxy

/-- Modelled from the spec (§3): the struct declarations live outside the
provided source file; fields and their uses are taken from
`pkg/haproxy/types/host.go`.  `PathLink` is the (hostname, path) identity
of one routing rule. -/
structure PathLink where
  hostname : String
  path : String
deriving DecidableEq, Repr

/-- Modelled from the spec (§3): `MatchType` is an opaque match-kind tag
(declared outside the provided source); its values are never inspected by
the core, so it is embedded as a plain string. -/
abbrev MatchType := String

/-- Modelled from the spec (§3): immutable snapshot of a backend's
identity captured when a path is bound.  Field names are those read in
`Host.AddPath`. -/
structure HostBackend where
  ID : String
  Namespace : String
  Name : String
  Port : String
deriving DecidableEq, Repr

/-- Modelled from the spec (§3): one routing rule inside a host.  Field
names are those used in `AddPath` and `FindPath`. -/
structure HostPath where
  Path : String
  Link : PathLink
  Match : MatchType
  Backend : HostBackend
deriving DecidableEq, Repr

/-- Modelled from the spec (§3): TLS configuration of a host; only the
fields read in the provided source (`HasTLSAuth`, `HasTLS`) are kept. -/
structure HostTLSConfig where
  TLSFilename : String
  CAHash : String
deriving DecidableEq, Repr

/-- Modelled from the spec (§3): a virtual host.  Fields are those used in
`host.go` (the back-reference `hosts *Hosts` is dropped: registry-side
effects of `SetSSLPassthrough` are modelled at the registry level). -/
structure Host where
  Hostname : String
  Paths : List HostPath
  TLS : HostTLSConfig
  VarNamespace : Bool
  sslPassthrough : Bool
deriving DecidableEq, Repr

/-- Modelled from the spec (§2, §6): the external backend collaborator,
read by `AddPath` to build a `HostBackend` snapshot.  Its own reverse
index (`AddBackendPath`) is an outbound effect on the collaborator and is
outside the registry state. -/
structure Backend where
  ID : String
  Namespace : String
  Name : String
  Port : String
deriving DecidableEq, Repr

/-! ## Association-list model of Go string-keyed maps -/

/-- Lookup: the value of the first pair whose key is `k`. -/
def alFind {α : Type} (m : List (String × α)) (k : String) : Option α :=
  (m.find? (fun p => p.1 == k)).map (fun p => p.2)

/-- Key-membership test. -/
def alContains {α : Type} (m : List (String × α)) (k : String) : Bool :=
  m.any (fun p => p.1 == k)

/-- Overwrite the value stored at key `k` (no effect on other keys, no
effect at all when `k` is absent). -/
def alReplace {α : Type} (m : List (String × α)) (k : String) (v : α) :
    List (String × α) :=
  m.map (fun p => if p.1 = k then (p.1, v) else p)

/-- Go `m[k] = v`: replace the value at `k` if present, append otherwise. -/
def alInsert {α : Type} (m : List (String × α)) (k : String) (v : α) :
    List (String × α) :=
  if alContains m k then alReplace m k v
  else m ++ [(k, v)]

/-- Go `delete(m, k)`. -/
def alErase {α : Type} (m : List (String × α)) (k : String) :
    List (String × α) :=
  m.filter (fun p => p.1 != k)

/-- The keys of an association list. -/
def alKeys {α : Type} (m : List (String × α)) : List String :=
  m.map Prod.fst

/-- Well-formedness of the map model: keys are pairwise distinct, as in a
Go map.  Every state reachable from `CreateHosts` satisfies it. -/
def WFal {α : Type} (m : List (String × α)) : Prop :=
  (alKeys m).Nodup

instance {α : Type} (m : List (String × α)) : Decidable (WFal m) :=
  inferInstanceAs (Decidable ((alKeys m).Nodup))

/-- Number of entries stored under key `k`. -/
def countKey {α : Type} (m : List (String × α)) (k : String) : Nat :=
  (m.filter (fun p => p.1 == k)).length

/-! ## The registry -/

/-- The `Hosts` registry state: the three hostname-keyed maps, the
SSL-passthrough aggregate counter and the commit flag. -/
structure Hosts where
  items : List (String × Host)
  itemsAdd : List (String × Host)
  itemsDel : List (String × Host)
  sslPassthroughCount : Int
  hasCommit : Bool
deriving DecidableEq, Repr

/-- `CreateHosts`: fresh registry with empty maps (counter and flag are
Go zero values). -/
def CreateHosts : Hosts :=
  { items := [], itemsAdd := [], itemsDel := [],
    sslPassthroughCount := 0, hasCommit := false }

/-- `CreatePathLink`. -/
def CreatePathLink (hostname path : String) : PathLink :=
  { hostname := hostname, path := path }

/-- `Hosts.FindHost`: lookup in `items`; Go's nil result is `none`. -/
def Hosts.FindHost (h : Hosts) (hostname : String) : Option Host :=
  alFind h.items hostname

/-- `createHost`: the zero-valued fresh host built by `AcquireHost`
(`&Host{Hostname: hostname, hosts: h}`; the back-reference is dropped in
the model). -/
def Hosts.createHost (hostname : String) : Host :=
  { Hostname := hostname, Paths := [], TLS := { TLSFilename := "", CAHash := "" },
    VarNamespace := false, sslPassthrough := false }

/-- `Hosts.AcquireHost`: return the existing host, or create a fresh one
and record it in `items` and `itemsAdd`.  The returned `Host` is the
value the Go pointer refers to. -/
def Hosts.AcquireHost (h : Hosts) (hostname : String) : Host × Hosts :=
  match h.FindHost hostname with
  | some host => (host, h)
  | none =>
    let host := Hosts.createHost hostname
    (host, { h with items := alInsert h.items hostname host,
                    itemsAdd := alInsert h.itemsAdd hostname host })

/-- `releaseHost`: reverse the removed host's contribution to the
aggregate counter. -/
def Hosts.releaseHost (h : Hosts) (host : Host) : Hosts :=
  if host.sslPassthrough then
    { h with sslPassthroughCount := h.sslPassthroughCount - 1 }
  else h

/-- One iteration of the `RemoveAll` loop body. -/
def Hosts.removeOne (h : Hosts) (hostname : String) : Hosts :=
  match alFind h.items hostname with
  | some item =>
    let h1 := h.releaseHost item
    { h1 with itemsDel := alInsert h1.itemsDel hostname item,
              items := alErase h1.items hostname }
  | none => h

/-- `Hosts.RemoveAll`. -/
def Hosts.RemoveAll (h : Hosts) (hostnames : List String) : Hosts :=
  hostnames.foldl Hosts.removeOne h

/-- One iteration of the `Shrink` loop: if the hostname of this
`itemsDel` entry also sits in `itemsAdd` with `reflect.DeepEqual`
content, restore `items[name] = del` and drop the pair from both
tracking maps.  `reflect.DeepEqual` on two `*Host` of the same registry
is structural equality of the embedded `Host` values (the `hosts`
back-references are the identical pointer). -/
def Hosts.shrinkStep (s : Hosts) (p : String × Host) : Hosts :=
  match alFind s.itemsAdd p.1 with
  | some add =>
    if add = p.2 then
      { s with items := alInsert s.items p.1 p.2,
               itemsAdd := alErase s.itemsAdd p.1,
               itemsDel := alErase s.itemsDel p.1 }
    else s
  | none => s

/-- `Hosts.Shrink`: iterate the step over the `itemsDel` entries.  Go
ranges over the map in unspecified order; each step touches only its own
hostname's entries, so any enumeration order gives the same state — the
model uses the list order. -/
def Hosts.Shrink (h : Hosts) : Hosts :=
  h.itemsDel.foldl Hosts.shrinkStep h

/-- `Hosts.Commit`: clear both tracking maps and set the commit flag. -/
def Hosts.Commit (h : Hosts) : Hosts :=
  { h with itemsAdd := [], itemsDel := [], hasCommit := true }

/-- `Hosts.HasCommit`. -/
def Hosts.HasCommit (h : Hosts) : Bool :=
  h.hasCommit

/-- `Hosts.Changed`. -/
def Hosts.Changed (h : Hosts) : Bool :=
  h.itemsAdd.length > 0 || h.itemsDel.length > 0

/-- Modelled from the spec (§3): the designated catch-all hostname; the
constant is declared outside the provided source file and its concrete
value is irrelevant to every claim. -/
def DefaultHost : String := "_default_"

/-- The ascending-hostname comparison used by `BuildSortedItems`. -/
def hostLE (a b : Host) : Prop := a.Hostname ≤ b.Hostname

instance : DecidableRel hostLE := fun a b =>
  inferInstanceAs (Decidable (a.Hostname ≤ b.Hostname))

instance : IsTotal Host hostLE :=
  ⟨fun a b => le_total a.Hostname b.Hostname⟩

instance : IsTrans Host hostLE :=
  ⟨fun _ _ _ hab hbc => le_trans hab hbc⟩

/-- `Hosts.BuildSortedItems`: every non-default host, sorted ascending by
hostname; Go returns nil (here `none`) when that collection is empty. -/
def Hosts.BuildSortedItems (h : Hosts) : Option (List Host) :=
  let sorted :=
    List.insertionSort hostLE
      ((h.items.filter (fun p => p.1 != DefaultHost)).map Prod.snd)
  if sorted.isEmpty then none else some sorted

/-- `Hosts.HasSSLPassthrough`. -/
def Hosts.HasSSLPassthrough (h : Hosts) : Bool :=
  h.sslPassthroughCount > 0

/-- `Hosts.HasVarNamespace`. -/
def Hosts.HasVarNamespace (h : Hosts) : Bool :=
  h.items.any (fun p => p.2.VarNamespace)

/-! ## Host operations -/

/-- `Host.FindPath`: first path with an exact string match, else `none`. -/
def Host.FindPath (h : Host) (path : String) : Option HostPath :=
  h.Paths.find? (fun p => p.Path == path)

/-- The descending-path comparison `AddPath` sorts with
(`h.Paths[i].Path > h.Paths[j].Path` as a strict-weak order gives a
non-increasing arrangement). -/
def pathGE (a b : HostPath) : Prop := b.Path ≤ a.Path

instance : DecidableRel pathGE := fun a b =>
  inferInstanceAs (Decidable (b.Path ≤ a.Path))

instance : IsTotal HostPath pathGE :=
  ⟨fun a b => le_total b.Path a.Path⟩

instance : IsTrans HostPath pathGE :=
  ⟨fun _ _ _ hab hbc => le_trans hbc hab⟩

/-- The sentinel backend bound when `AddPath` receives a nil backend. -/
def error404Backend : HostBackend :=
  { ID := "_error404", Namespace := "", Name := "", Port := "" }

/-- `Host.AddPath`: build the link, snapshot the backend (or bind the
`_error404` sentinel on nil), append the new `HostPath` and re-sort the
whole list descending by path string.  The outbound
`backend.AddBackendPath(link)` call mutates only the external backend
collaborator and is not part of the registry state. -/
def Host.AddPath (h : Host) (backend : Option Backend) (path : String)
    (mt : MatchType) : Host :=
  let link := CreatePathLink h.Hostname path
  let hback : HostBackend :=
    (match backend with
     | some b => { ID := b.ID, Namespace := b.Namespace, Name := b.Name, Port := b.Port }
     | none => error404Backend)
  { h with Paths :=
      (List.insertionSort pathGE
        (h.Paths ++ [{ Path := path, Link := link, Match := mt, Backend := hback }])) }

/-- `Host.HasTLSAuth`. -/
def Host.HasTLSAuth (h : Host) : Bool :=
  h.TLS.CAHash != ""

/-- `Host.SSLPassthrough` (the getter). -/
def Host.SSLPassthroughFlag (h : Host) : Bool :=
  h.sslPassthrough

/-- `Host.SetSSLPassthrough`, lifted to the registry: the Go method
mutates the host in place through the pointer returned by
`AcquireHost`/`FindHost` (always an `items` entry) and adjusts the
owning registry's counter through the back-reference.  The same pointer
sits in `itemsAdd` when the hostname is there, so the update is written
through to that entry as well. -/
def Hosts.setSSLPassthrough (hs : Hosts) (hostname : String) (value : Bool) : Hosts :=
  match alFind hs.items hostname with
  | none => hs
  | some host =>
    if host.sslPassthrough = value then hs
    else
      let host1 := { host with sslPassthrough := value }
      { hs with
        sslPassthroughCount :=
          if value then hs.sslPassthroughCount + 1 else hs.sslPassthroughCount - 1,
        items := alInsert hs.items hostname host1,
        itemsAdd := alReplace hs.itemsAdd hostname host1 }

/-- In-place mutation of the host returned by `AcquireHost` through its
pointer (e.g. a sequence of `AddPath`/flag writes rebuilding the host),
lifted to the registry: `items[hostname]` is updated, and — same pointer —
the `itemsAdd` entry when present.  Counter-adjusting writes are modelled
separately by `Hosts.setSSLPassthrough`. -/
def Hosts.modifyHost (hs : Hosts) (hostname : String) (f : Host → Host) : Hosts :=
  match alFind hs.items hostname with
  | none => hs
  | some host =>
    let host1 := f host
    { hs with
      items := alInsert hs.items hostname host1,
      itemsAdd := alReplace hs.itemsAdd hostname host1 }

/-! ## PathLink operations -/

/-- `PathLink.IsEmpty`. -/
def PathLink.IsEmpty (l : PathLink) : Bool :=
  l.hostname == "" && l.path == ""

/-- `PathLink.Less`. -/
def PathLink.Less (l : PathLink) (other : PathLink) (reversePath : Bool) : Bool :=
  if l.hostname == other.hostname then
    if reversePath then decide (other.path < l.path)
    else decide (l.path < other.path)
  else decide (l.hostname < other.hostname)

/-! ## Registry operation sequences -/

/-- The registry operations of the change-tracking protocol, as driven by
the rebuild cycle. -/
inductive Op where
  | acquire (hostname : String)
  | setSSL (hostname : String) (value : Bool)
  | removeAll (hostnames : List String)
  | shrink
  | commit
deriving DecidableEq, Repr

/-- Apply one registry operation. -/
def applyOp (s : Hosts) (op : Op) : Hosts :=
  match op with
  | .acquire h => (s.AcquireHost h).2
  | .setSSL h v => s.setSSLPassthrough h v
  | .removeAll hs => s.RemoveAll hs
  | .shrink => s.Shrink
  | .commit => s.Commit

/-- Apply a sequence of registry operations. -/
def applyOps (s : Hosts) (ops : List Op) : Hosts :=
  ops.foldl applyOp s

/-- Number of hosts in a map whose `sslPassthrough` flag is set. -/
def countSSL (m : List (String × Host)) : Int :=
  ((m.filter (fun p => p.2.sslPassthrough)).length : Int)

/-- The contribution of one host to `sslPassthroughCount`. -/
def flagInt (h : Host) : Int :=
  if h.sslPassthrough then 1 else 0

/-- Whether an operation is an `AcquireHost` or a `RemoveAll`. -/
def Op.isAcqRem : Op → Bool
  | .acquire _ => true
  | .removeAll _ => true
  | _ => false

/-- Whether one operation is `AcquireHost x`. -/
def opAcquires (op : Op) (x : String) : Bool :=
  match op with
  | .acquire y => y == x
  | _ => false

/-- Whether the sequence acquires hostname `x` at some point. -/
def acquiredBy (ops : List Op) (x : String) : Bool :=
  ops.any (fun op => opAcquires op x)

/-- All three maps of the registry have pairwise-distinct keys (as Go
maps do); holds in every state reachable from `CreateHosts`. -/
def WFst (s : Hosts) : Prop :=
  WFal s.items ∧ WFal s.itemsAdd ∧ WFal s.itemsDel

/-- Invariant of states reached from a fresh registry by `AcquireHost`
and `RemoveAll` only: maps are well-formed, every recorded host is the
fresh zero-valued host of its hostname, `itemsAdd` holds exactly the
hostnames in `A`, and a hostname is in `items` or in `itemsDel` exactly
when it is in `A`. -/
def freshInv (s : Hosts) (A : String → Bool) : Prop :=
  WFst s
  ∧ (∀ x h, alFind s.items x = some h → h = Hosts.createHost x)
  ∧ (∀ x h, alFind s.itemsAdd x = some h → h = Hosts.createHost x)
  ∧ (∀ x h, alFind s.itemsDel x = some h → h = Hosts.createHost x)
  ∧ (∀ x, (alFind s.itemsAdd x).isSome = A x)
  ∧ (∀ x, ((alFind s.items x).isSome || (alFind s.itemsDel x).isSome) = A x)

/-! ## Lemmas about the association-list model -/

lemma alFind_cons {α : Type} (p : String × α) (m : List (String × α)) (k : String) :
    alFind (p :: m) k = if p.1 = k then some p.2 else alFind m k := by
  by_cases h : p.1 = k
  · have hb : (p.1 == k) = true := by simpa using h
    simp [alFind, List.find?_cons_of_pos, hb, h]
  · have hb : ¬ ((p.1 == k) = true) := by simpa using h
    simp [alFind, List.find?_cons_of_neg, hb, h]

lemma alFind_eq_none_iff {α : Type} (m : List (String × α)) (k : String) :
    alFind m k = none ↔ ∀ p ∈ m, p.1 ≠ k := by
  induction m with
  | nil => simp [alFind]
  | cons p t ih =>
    rw [alFind_cons]
    by_cases h : p.1 = k
    · simp [h]
    · simp [h, ih]

lemma alContains_eq_isSome {α : Type} (m : List (String × α)) (k : String) :
    alContains m k = (alFind m k).isSome := by
  induction m with
  | nil => simp [alContains, alFind]
  | cons p t ih =>
    rw [alFind_cons]
    by_cases h : p.1 = k
    · simp [alContains, h]
    · rw [if_neg h, ← ih]
      simp [alContains, h]

lemma alFind_append {α : Type} (m l : List (String × α)) (k : String) :
    alFind (m ++ l) k = (alFind m k).orElse (fun _ => alFind l k) := by
  induction m with
  | nil => simp [alFind]
  | cons p t ih =>
    rw [List.cons_append, alFind_cons, alFind_cons]
    by_cases h : p.1 = k
    · simp [h]
    · simp [h, ih]

lemma alFind_singleton {α : Type} (k : String) (v : α) :
    alFind [(k, v)] k = some v := by
  rw [alFind_cons]
  simp

lemma alFind_mem {α : Type} {m : List (String × α)} {k : String} {v : α}
    (h : alFind m k = some v) : (k, v) ∈ m := by
  induction m with
  | nil => simp [alFind] at h
  | cons p t ih =>
    rw [alFind_cons] at h
    by_cases hk : p.1 = k
    · rw [if_pos hk, Option.some_inj] at h
      have hp : p = (k, v) := by
        obtain ⟨a, b⟩ := p
        simp only at hk h
        rw [hk, h]
      rw [hp]
      exact List.mem_cons_self _ _
    · rw [if_neg hk] at h
      exact List.mem_cons_of_mem _ (ih h)

lemma alReplace_cons {α : Type} (p : String × α) (t : List (String × α))
    (k : String) (v : α) :
    alReplace (p :: t) k v =
      (if p.1 = k then (p.1, v) else p) :: alReplace t k v := by
  simp [alReplace]

lemma alFind_alReplace_self {α : Type} (m : List (String × α)) (k : String) (v : α) :
    alFind (alReplace m k v) k = (alFind m k).map (fun _ => v) := by
  induction m with
  | nil => simp [alReplace, alFind]
  | cons p t ih =>
    rw [alReplace_cons]
    by_cases h : p.1 = k
    · rw [if_pos h, alFind_cons, alFind_cons]
      simp [h]
    · rw [if_neg h, alFind_cons, alFind_cons, if_neg h, if_neg h]
      exact ih

lemma alFind_alReplace_ne {α : Type} (m : List (String × α)) {k q : String} (v : α)
    (hne : q ≠ k) : alFind (alReplace m k v) q = alFind m q := by
  induction m with
  | nil => simp [alReplace, alFind]
  | cons p t ih =>
    rw [alReplace_cons]
    by_cases h : p.1 = k
    · have hpq : ¬ p.1 = q := by rw [h]; exact fun hh => hne hh.symm
      rw [if_pos h, alFind_cons, alFind_cons]
      have hkq : ¬ (k = q) := fun hh => hne hh.symm
      simp only [h, hkq, hpq, if_neg, if_false]
      exact ih
    · rw [if_neg h, alFind_cons, alFind_cons]
      by_cases hq : p.1 = q
      · rw [if_pos hq, if_pos hq]
      · rw [if_neg hq, if_neg hq]
        exact ih

lemma alKeys_alReplace {α : Type} (m : List (String × α)) (k : String) (v : α) :
    alKeys (alReplace m k v) = alKeys m := by
  induction m with
  | nil => rfl
  | cons p t ih =>
    rw [alReplace_cons]
    have hfst : (if p.1 = k then (p.1, v) else p).1 = p.1 := by
      by_cases h : p.1 = k
      · rw [if_pos h]
      · rw [if_neg h]
    show (if p.1 = k then (p.1, v) else p).1 :: alKeys (alReplace t k v) =
      p.1 :: alKeys t
    rw [hfst, ih]

lemma alFind_alInsert_self {α : Type} (m : List (String × α)) (k : String) (v : α) :
    alFind (alInsert m k v) k = some v := by
  unfold alInsert
  by_cases h : alContains m k = true
  · rw [if_pos h, alFind_alReplace_self]
    rw [alContains_eq_isSome] at h
    cases hf : alFind m k with
    | none => rw [hf] at h; simp at h
    | some w => simp
  · rw [if_neg h, alFind_append]
    rw [alContains_eq_isSome] at h
    cases hf : alFind m k with
    | none => simp [alFind_singleton]
    | some w => rw [hf] at h; simp at h

lemma alFind_alInsert_ne {α : Type} (m : List (String × α)) {k q : String} (v : α)
    (hne : q ≠ k) : alFind (alInsert m k v) q = alFind m q := by
  unfold alInsert
  by_cases h : alContains m k = true
  · rw [if_pos h, alFind_alReplace_ne m v hne]
  · rw [if_neg h, alFind_append, alFind_cons]
    have : ¬ (k = q) := fun hh => hne hh.symm
    simp only [this, if_neg, if_false]
    cases hf : alFind m q with
    | none => simp [alFind]
    | some w => simp

lemma alFind_alErase_self {α : Type} (m : List (String × α)) (k : String) :
    alFind (alErase m k) k = none := by
  rw [alFind_eq_none_iff]
  intro p hp
  simp only [alErase, List.mem_filter] at hp
  have := hp.2
  simpa using this

lemma alFind_alErase_ne {α : Type} (m : List (String × α)) {k q : String}
    (hne : q ≠ k) : alFind (alErase m k) q = alFind m q := by
  induction m with
  | nil => rfl
  | cons p t ih =>
    by_cases h : p.1 = k
    · have hb : (p.1 != k) = false := by simp [h]
      simp only [alErase, List.filter_cons, hb, if_neg, Bool.false_eq_true,
        not_false_iff, if_false] at ih ⊢
      rw [alFind_cons]
      have : ¬ p.1 = q := by rw [h]; exact fun hh => hne hh.symm
      simp [this, ih]
    · have hb : (p.1 != k) = true := by simp [h]
      simp only [alErase, List.filter_cons, hb, if_pos] at ih ⊢
      rw [alFind_cons, alFind_cons]
      by_cases hq : p.1 = q
      · simp [hq]
      · simp [hq, ih]

lemma alErase_of_find_none {α : Type} {m : List (String × α)} {k : String}
    (h : alFind m k = none) : alErase m k = m := by
  rw [alFind_eq_none_iff] at h
  unfold alErase
  apply List.filter_eq_self.mpr
  intro p hp
  simpa using h p hp

lemma alReplace_of_find_none {α : Type} {m : List (String × α)} {k : String}
    (v : α) (h : alFind m k = none) : alReplace m k v = m := by
  rw [alFind_eq_none_iff] at h
  induction m with
  | nil => rfl
  | cons p t ih =>
    rw [alReplace_cons, if_neg (h p (List.mem_cons_self _ _))]
    rw [ih (fun q hq => h q (List.mem_cons_of_mem _ hq))]

lemma alFind_none_iff_not_mem_keys {α : Type} (m : List (String × α)) (k : String) :
    alFind m k = none ↔ k ∉ alKeys m := by
  rw [alFind_eq_none_iff]
  constructor
  · intro h hk
    obtain ⟨p, hp, hpk⟩ := List.mem_map.mp hk
    exact h p hp hpk
  · intro h p hp hpk
    exact h (List.mem_map.mpr ⟨p, hp, hpk⟩)

lemma alKeys_append {α : Type} (m l : List (String × α)) :
    alKeys (m ++ l) = alKeys m ++ alKeys l := by
  simp [alKeys]

lemma WFal_alReplace {α : Type} {m : List (String × α)} (k : String) (v : α)
    (h : WFal m) : WFal (alReplace m k v) := by
  unfold WFal
  rw [alKeys_alReplace]
  exact h

lemma WFal_alInsert {α : Type} {m : List (String × α)} (k : String) (v : α)
    (h : WFal m) : WFal (alInsert m k v) := by
  unfold alInsert
  by_cases hc : alContains m k = true
  · rw [if_pos hc]
    exact WFal_alReplace k v h
  · rw [if_neg hc]
    have hnone : alFind m k = none := by
      rw [alContains_eq_isSome] at hc
      cases hf : alFind m k with
      | none => rfl
      | some w => rw [hf] at hc; simp at hc
    have hk : k ∉ alKeys m := (alFind_none_iff_not_mem_keys m k).mp hnone
    unfold WFal
    rw [alKeys_append]
    rw [List.nodup_append]
    refine ⟨h, by simp [alKeys], ?_⟩
    intro a ha hb
    have : a = k := by simpa [alKeys] using hb
    rw [this] at ha
    exact hk ha

lemma WFal_alErase {α : Type} {m : List (String × α)} (k : String)
    (h : WFal m) : WFal (alErase m k) := by
  unfold WFal alKeys
  exact ((List.filter_sublist m).map Prod.fst).nodup h

lemma alFind_of_mem_WF {α : Type} {m : List (String × α)} {k : String} {v : α}
    (hwf : WFal m) (hmem : (k, v) ∈ m) : alFind m k = some v := by
  induction m with
  | nil => simp at hmem
  | cons p t ih =>
    rw [alFind_cons]
    rcases List.mem_cons.mp hmem with h1 | h1
    · rw [← h1]
      simp
    · have hk : k ∈ alKeys t := List.mem_map.mpr ⟨(k, v), h1, rfl⟩
      have hpk : ¬ p.1 = k := by
        intro he
        have := (List.nodup_cons.mp hwf).1
        rw [he] at this
        exact this hk
      rw [if_neg hpk]
      exact ih (List.nodup_cons.mp hwf).2 h1

lemma countKey_cons {α : Type} (p : String × α) (t : List (String × α)) (k : String) :
    countKey (p :: t) k = (if p.1 = k then 1 else 0) + countKey t k := by
  by_cases h : p.1 = k
  · have hb : (p.1 == k) = true := by simpa using h
    simp [countKey, List.filter_cons, hb, h, Nat.add_comm]
  · have hb : ¬ ((p.1 == k) = true) := by simpa using h
    simp [countKey, List.filter_cons, hb, h]

lemma countKey_eq_zero_of_find_none {α : Type} {m : List (String × α)} {k : String}
    (h : alFind m k = none) : countKey m k = 0 := by
  rw [alFind_eq_none_iff] at h
  unfold countKey
  rw [List.filter_eq_nil_iff.mpr (fun p hp => by simpa using h p hp)]
  rfl

lemma countKey_append {α : Type} (m l : List (String × α)) (k : String) :
    countKey (m ++ l) k = countKey m k + countKey l k := by
  simp [countKey, List.filter_append]

lemma countKey_alReplace {α : Type} (m : List (String × α)) (k q : String) (v : α) :
    countKey (alReplace m q v) k = countKey m k := by
  induction m with
  | nil => rfl
  | cons p t ih =>
    rw [alReplace_cons, countKey_cons, countKey_cons, ih]
    by_cases h : p.1 = q
    · rw [if_pos h]
    · rw [if_neg h]

lemma one_le_countKey_of_find {α : Type} {m : List (String × α)} {k : String} {v : α}
    (h : alFind m k = some v) : 1 ≤ countKey m k := by
  have hmem : (k, v) ∈ m := alFind_mem h
  have : (k, v) ∈ m.filter (fun p => p.1 == k) :=
    List.mem_filter.mpr ⟨hmem, by simp⟩
  have hne : m.filter (fun p => p.1 == k) ≠ [] := List.ne_nil_of_mem this
  exact List.length_pos.mpr hne

lemma countSSL_cons (p : String × Host) (t : List (String × Host)) :
    countSSL (p :: t) = flagInt p.2 + countSSL t := by
  by_cases h : p.2.sslPassthrough
  · simp [countSSL, List.filter_cons, h, flagInt, Int.add_comm]
  · simp [countSSL, List.filter_cons, h, flagInt]

lemma countSSL_append (m l : List (String × Host)) :
    countSSL (m ++ l) = countSSL m + countSSL l := by
  simp [countSSL, List.filter_append]

lemma countSSL_alReplace {m : List (String × Host)} {k : String} {h : Host}
    (v : Host) (hwf : WFal m) (hf : alFind m k = some h) :
    countSSL (alReplace m k v) + flagInt h = countSSL m + flagInt v := by
  induction m with
  | nil => simp [alFind] at hf
  | cons p t ih =>
    rw [alFind_cons] at hf
    rw [alReplace_cons]
    by_cases hk : p.1 = k
    · rw [if_pos hk, Option.some_inj] at hf
      rw [if_pos hk, countSSL_cons, countSSL_cons]
      have hkeys : k ∉ alKeys t := by
        have := (List.nodup_cons.mp hwf).1
        rw [hk] at this
        exact this
      have hnone : alFind t k = none := (alFind_none_iff_not_mem_keys t k).mpr hkeys
      rw [alReplace_of_find_none v hnone, hf]
      have hv : flagInt ((p.1, v)).2 = flagInt v := rfl
      rw [hv]
      omega
    · rw [if_neg hk] at hf
      rw [if_neg hk, countSSL_cons, countSSL_cons]
      have := ih (List.nodup_cons.mp hwf).2 hf
      omega

lemma countSSL_alErase {m : List (String × Host)} {k : String} {h : Host}
    (hwf : WFal m) (hf : alFind m k = some h) :
    countSSL (alErase m k) + flagInt h = countSSL m := by
  induction m with
  | nil => simp [alFind] at hf
  | cons p t ih =>
    rw [alFind_cons] at hf
    by_cases hk : p.1 = k
    · rw [if_pos hk, Option.some_inj] at hf
      have hb : (p.1 != k) = false := by simp [hk]
      have hkeys : k ∉ alKeys t := by
        have := (List.nodup_cons.mp hwf).1
        rw [hk] at this
        exact this
      have hnone : alFind t k = none := (alFind_none_iff_not_mem_keys t k).mpr hkeys
      show countSSL (List.filter (fun q => q.1 != k) (p :: t)) + flagInt h = _
      rw [List.filter_cons, hb]
      simp only [Bool.false_eq_true, if_false]
      show countSSL (alErase t k) + flagInt h = _
      rw [alErase_of_find_none hnone, countSSL_cons, hf]
      omega
    · rw [if_neg hk] at hf
      have hb : (p.1 != k) = true := by simp [hk]
      show countSSL (List.filter (fun q => q.1 != k) (p :: t)) + flagInt h = _
      rw [List.filter_cons, hb, if_pos rfl]
      show countSSL (p :: alErase t k) + flagInt h = _
      rw [countSSL_cons, countSSL_cons]
      have := ih (List.nodup_cons.mp hwf).2 hf
      omega

/-! ## Shape lemmas for the registry operations -/

lemma AcquireHost_found {s : Hosts} {x : String} {host : Host}
    (h : alFind s.items x = some host) : s.AcquireHost x = (host, s) := by
  simp [Hosts.AcquireHost, Hosts.FindHost, h]

lemma AcquireHost_new {s : Hosts} {x : String}
    (h : alFind s.items x = none) :
    s.AcquireHost x =
      (Hosts.createHost x,
       { s with items := alInsert s.items x (Hosts.createHost x),
                itemsAdd := alInsert s.itemsAdd x (Hosts.createHost x) }) := by
  simp [Hosts.AcquireHost, Hosts.FindHost, h]

lemma removeOne_none {s : Hosts} {x : String}
    (h : alFind s.items x = none) : s.removeOne x = s := by
  simp [Hosts.removeOne, h]

lemma removeOne_found {s : Hosts} {x : String} {item : Host}
    (h : alFind s.items x = some item) :
    (s.removeOne x).items = alErase s.items x
    ∧ (s.removeOne x).itemsAdd = s.itemsAdd
    ∧ (s.removeOne x).itemsDel = alInsert s.itemsDel x item
    ∧ (s.removeOne x).sslPassthroughCount = s.sslPassthroughCount - flagInt item
    ∧ (s.removeOne x).hasCommit = s.hasCommit := by
  by_cases hp : item.sslPassthrough
  · simp [Hosts.removeOne, Hosts.releaseHost, h, hp, flagInt]
  · simp [Hosts.removeOne, Hosts.releaseHost, h, hp, flagInt]

lemma setSSL_absent {s : Hosts} {x : String} {v : Bool}
    (h : alFind s.items x = none) : s.setSSLPassthrough x v = s := by
  simp [Hosts.setSSLPassthrough, h]

lemma setSSL_noop {s : Hosts} {x : String} {v : Bool} {host : Host}
    (h : alFind s.items x = some host) (he : host.sslPassthrough = v) :
    s.setSSLPassthrough x v = s := by
  simp [Hosts.setSSLPassthrough, h, he]

lemma setSSL_found {s : Hosts} {x : String} {v : Bool} {host : Host}
    (h : alFind s.items x = some host) (hne : ¬ host.sslPassthrough = v) :
    s.setSSLPassthrough x v =
      { s with
        sslPassthroughCount :=
          if v then s.sslPassthroughCount + 1 else s.sslPassthroughCount - 1,
        items := alInsert s.items x { host with sslPassthrough := v },
        itemsAdd := alReplace s.itemsAdd x { host with sslPassthrough := v } } := by
  simp [Hosts.setSSLPassthrough, h, hne]

lemma shrinkStep_none {s : Hosts} {p : String × Host}
    (h : alFind s.itemsAdd p.1 = none) : s.shrinkStep p = s := by
  simp [Hosts.shrinkStep, h]

lemma shrinkStep_ne {s : Hosts} {p : String × Host} {a : Host}
    (h : alFind s.itemsAdd p.1 = some a) (hne : ¬ a = p.2) : s.shrinkStep p = s := by
  simp [Hosts.shrinkStep, h, hne]

lemma shrinkStep_cancel {s : Hosts} {p : String × Host}
    (h : alFind s.itemsAdd p.1 = some p.2) :
    s.shrinkStep p =
      { s with items := alInsert s.items p.1 p.2,
               itemsAdd := alErase s.itemsAdd p.1,
               itemsDel := alErase s.itemsDel p.1 } := by
  simp [Hosts.shrinkStep, h]

/-! ## Well-formedness: keys stay pairwise distinct in every reachable state -/

lemma WFst_acquire {s : Hosts} (x : String) (h : WFst s) :
    WFst (s.AcquireHost x).2 := by
  cases hf : alFind s.items x with
  | some host => rw [AcquireHost_found hf]; exact h
  | none =>
    rw [AcquireHost_new hf]
    exact ⟨WFal_alInsert x _ h.1, WFal_alInsert x _ h.2.1, h.2.2⟩

lemma WFst_setSSL {s : Hosts} (x : String) (v : Bool) (h : WFst s) :
    WFst (s.setSSLPassthrough x v) := by
  cases hf : alFind s.items x with
  | none => rw [setSSL_absent hf]; exact h
  | some host =>
    by_cases he : host.sslPassthrough = v
    · rw [setSSL_noop hf he]; exact h
    · rw [setSSL_found hf he]
      exact ⟨WFal_alInsert x _ h.1, WFal_alReplace x _ h.2.1, h.2.2⟩

lemma WFst_removeOne {s : Hosts} (x : String) (h : WFst s) :
    WFst (s.removeOne x) := by
  cases hf : alFind s.items x with
  | none => rw [removeOne_none hf]; exact h
  | some item =>
    obtain ⟨h1, h2, h3, _, _⟩ := removeOne_found hf
    refine ⟨?_, ?_, ?_⟩
    · rw [h1]; exact WFal_alErase x h.1
    · rw [h2]; exact h.2.1
    · rw [h3]; exact WFal_alInsert x _ h.2.2

lemma WFst_removeAll {s : Hosts} (l : List String) (h : WFst s) :
    WFst (s.RemoveAll l) := by
  induction l generalizing s with
  | nil => exact h
  | cons x t ih => exact ih (WFst_removeOne x h)

lemma WFst_shrinkStep {s : Hosts} (p : String × Host) (h : WFst s) :
    WFst (s.shrinkStep p) := by
  cases hf : alFind s.itemsAdd p.1 with
  | none => rw [shrinkStep_none hf]; exact h
  | some a =>
    by_cases he : a = p.2
    · rw [he] at hf
      rw [shrinkStep_cancel hf]
      exact ⟨WFal_alInsert _ _ h.1, WFal_alErase _ h.2.1, WFal_alErase _ h.2.2⟩
    · rw [shrinkStep_ne hf he]; exact h

lemma WFst_foldl_shrinkStep {l : List (String × Host)} {s : Hosts} (h : WFst s) :
    WFst (l.foldl Hosts.shrinkStep s) := by
  induction l generalizing s with
  | nil => exact h
  | cons p t ih => exact ih (WFst_shrinkStep p h)

lemma WFst_shrink {s : Hosts} (h : WFst s) : WFst s.Shrink :=
  WFst_foldl_shrinkStep h

lemma WFst_applyOp {s : Hosts} (op : Op) (h : WFst s) : WFst (applyOp s op) := by
  cases op with
  | acquire x => exact WFst_acquire x h
  | setSSL x v => exact WFst_setSSL x v h
  | removeAll l => exact WFst_removeAll l h
  | shrink => exact WFst_shrink h
  | commit => exact ⟨h.1, List.nodup_nil, List.nodup_nil⟩

lemma WFst_applyOps {s : Hosts} (ops : List Op) (h : WFst s) :
    WFst (applyOps s ops) := by
  induction ops generalizing s with
  | nil => exact h
  | cons op t ih => exact ih (WFst_applyOp op h)

lemma WFst_CreateHosts : WFst CreateHosts :=
  ⟨List.nodup_nil, List.nodup_nil, List.nodup_nil⟩

lemma alInsert_of_find_none {α : Type} {m : List (String × α)} {k : String}
    (v : α) (h : alFind m k = none) : alInsert m k v = m ++ [(k, v)] := by
  unfold alInsert
  rw [alContains_eq_isSome, h]
  simp

lemma alInsert_of_find_some {α : Type} {m : List (String × α)} {k : String} {w : α}
    (v : α) (h : alFind m k = some w) : alInsert m k v = alReplace m k v := by
  unfold alInsert
  rw [alContains_eq_isSome, h]
  simp

/-! ## The SSL-passthrough counter invariant -/

lemma countInv_acquire {s : Hosts} (x : String)
    (hinv : s.sslPassthroughCount = countSSL s.items) :
    (s.AcquireHost x).2.sslPassthroughCount = countSSL (s.AcquireHost x).2.items := by
  cases hf : alFind s.items x with
  | some host => rw [AcquireHost_found hf]; exact hinv
  | none =>
    rw [AcquireHost_new hf]
    show s.sslPassthroughCount = countSSL (alInsert s.items x (Hosts.createHost x))
    rw [alInsert_of_find_none _ hf, countSSL_append, hinv]
    rfl

lemma countInv_setSSL {s : Hosts} (x : String) (v : Bool)
    (hwf : WFal s.items)
    (hinv : s.sslPassthroughCount = countSSL s.items) :
    (s.setSSLPassthrough x v).sslPassthroughCount =
      countSSL (s.setSSLPassthrough x v).items := by
  cases hf : alFind s.items x with
  | none => rw [setSSL_absent hf]; exact hinv
  | some host =>
    by_cases he : host.sslPassthrough = v
    · rw [setSSL_noop hf he]; exact hinv
    · rw [setSSL_found hf he]
      show (if v then s.sslPassthroughCount + 1 else s.sslPassthroughCount - 1) =
        countSSL (alInsert s.items x { host with sslPassthrough := v })
      rw [alInsert_of_find_some _ hf]
      have harith := countSSL_alReplace { host with sslPassthrough := v } hwf hf
      cases v with
      | true =>
        have h0 : flagInt host = 0 := by
          simp at he
          simp [flagInt, he]
        have h1 : flagInt { host with sslPassthrough := true } = 1 := rfl
        rw [h0, h1] at harith
        rw [if_pos rfl, hinv]
        omega
      | false =>
        have h1 : flagInt host = 1 := by
          simp at he
          simp [flagInt, he]
        have h0 : flagInt { host with sslPassthrough := false } = 0 := rfl
        rw [h1, h0] at harith
        rw [if_neg (by simp), hinv]
        omega

lemma countInv_removeOne {s : Hosts} (x : String)
    (hwf : WFal s.items)
    (hinv : s.sslPassthroughCount = countSSL s.items) :
    (s.removeOne x).sslPassthroughCount = countSSL (s.removeOne x).items := by
  cases hf : alFind s.items x with
  | none => rw [removeOne_none hf]; exact hinv
  | some item =>
    obtain ⟨h1, _, _, h4, _⟩ := removeOne_found hf
    rw [h1, h4, hinv]
    have := countSSL_alErase hwf hf
    omega

lemma countInv_removeAll {s : Hosts} (l : List String)
    (hwf : WFst s)
    (hinv : s.sslPassthroughCount = countSSL s.items) :
    (s.RemoveAll l).sslPassthroughCount = countSSL (s.RemoveAll l).items := by
  induction l generalizing s with
  | nil => exact hinv
  | cons x t ih =>
    exact ih (WFst_removeOne x hwf) (countInv_removeOne x hwf.1 hinv)

lemma countInv_applyOp {s : Hosts} {op : Op} (hop : op ≠ Op.shrink)
    (hwf : WFst s)
    (hinv : s.sslPassthroughCount = countSSL s.items) :
    (applyOp s op).sslPassthroughCount = countSSL (applyOp s op).items := by
  cases op with
  | acquire x => exact countInv_acquire x hinv
  | setSSL x v => exact countInv_setSSL x v hwf.1 hinv
  | removeAll l => exact countInv_removeAll l hwf hinv
  | shrink => exact absurd rfl hop
  | commit => exact hinv

lemma countInv_applyOps {s : Hosts} {ops : List Op}
    (hops : Op.shrink ∉ ops)
    (hwf : WFst s)
    (hinv : s.sslPassthroughCount = countSSL s.items) :
    (applyOps s ops).sslPassthroughCount = countSSL (applyOps s ops).items := by
  induction ops generalizing s with
  | nil => exact hinv
  | cons op t ih =>
    have hop : op ≠ Op.shrink := by
      intro he
      exact hops (by rw [he]; exact List.mem_cons_self _ _)
    have ht : Op.shrink ∉ t := fun hm => hops (List.mem_cons_of_mem _ hm)
    exact ih ht (WFst_applyOp op hwf) (countInv_applyOp hop hwf hinv)

/-! ## How Shrink acts on the three maps -/

lemma shrinkStep_find_ne {s : Hosts} {p : String × Host} {x : String}
    (hne : p.1 ≠ x) :
    alFind (s.shrinkStep p).itemsAdd x = alFind s.itemsAdd x
    ∧ alFind (s.shrinkStep p).itemsDel x = alFind s.itemsDel x
    ∧ alFind (s.shrinkStep p).items x = alFind s.items x := by
  cases hf : alFind s.itemsAdd p.1 with
  | none => rw [shrinkStep_none hf]; exact ⟨rfl, rfl, rfl⟩
  | some a =>
    by_cases he : a = p.2
    · rw [he] at hf
      rw [shrinkStep_cancel hf]
      refine ⟨?_, ?_, ?_⟩
      · exact alFind_alErase_ne _ (Ne.symm hne)
      · exact alFind_alErase_ne _ (Ne.symm hne)
      · exact alFind_alInsert_ne _ _ (Ne.symm hne)
    · rw [shrinkStep_ne hf he]; exact ⟨rfl, rfl, rfl⟩

lemma foldl_shrinkStep_find_ne {l : List (String × Host)} {x : String} :
    ∀ {s : Hosts}, (∀ p ∈ l, p.1 ≠ x) →
    alFind (l.foldl Hosts.shrinkStep s).itemsAdd x = alFind s.itemsAdd x
    ∧ alFind (l.foldl Hosts.shrinkStep s).itemsDel x = alFind s.itemsDel x
    ∧ alFind (l.foldl Hosts.shrinkStep s).items x = alFind s.items x := by
  induction l with
  | nil => intro s _; exact ⟨rfl, rfl, rfl⟩
  | cons p t ih =>
    intro s hl
    have hp : p.1 ≠ x := hl p (List.mem_cons_self _ _)
    have ht : ∀ q ∈ t, q.1 ≠ x := fun q hq => hl q (List.mem_cons_of_mem _ hq)
    obtain ⟨e1, e2, e3⟩ := ih (s := s.shrinkStep p) ht
    obtain ⟨f1, f2, f3⟩ := shrinkStep_find_ne (s := s) hp
    exact ⟨e1.trans f1, e2.trans f2, e3.trans f3⟩

lemma keys_split_of_nodup {l1 l2 : List (String × Host)} {x : String} {d : Host}
    (hwf : (alKeys (l1 ++ (x, d) :: l2)).Nodup) :
    (∀ p ∈ l1, p.1 ≠ x) ∧ (∀ p ∈ l2, p.1 ≠ x) := by
  rw [alKeys, List.map_append, List.map_cons] at hwf
  rw [List.nodup_append] at hwf
  obtain ⟨h1, h2, hdisj⟩ := hwf
  constructor
  · intro p hp he
    exact hdisj (List.mem_map.mpr ⟨p, hp, he⟩) (List.mem_cons_self _ _)
  · intro p hp he
    have := (List.nodup_cons.mp h2).1
    exact this (by rw [← he]; exact List.mem_map.mpr ⟨p, hp, rfl⟩)

lemma shrink_cancel_one {s : Hosts} {x : String} {d : Host}
    (hwf : WFal s.itemsDel)
    (hd : alFind s.itemsDel x = some d)
    (ha : alFind s.itemsAdd x = some d) :
    alFind s.Shrink.itemsAdd x = none
    ∧ alFind s.Shrink.itemsDel x = none
    ∧ alFind s.Shrink.items x = some d := by
  obtain ⟨l1, l2, hsplit⟩ := List.append_of_mem (alFind_mem hd)
  have hkeys : (∀ p ∈ l1, p.1 ≠ x) ∧ (∀ p ∈ l2, p.1 ≠ x) :=
    keys_split_of_nodup (by rw [← hsplit]; exact hwf)
  unfold Hosts.Shrink
  rw [hsplit, List.foldl_append, List.foldl_cons]
  obtain ⟨e1, e2, e3⟩ := foldl_shrinkStep_find_ne (l := l1) (s := s) hkeys.1
  have hstep : alFind (l1.foldl Hosts.shrinkStep s).itemsAdd x = some d :=
    e1.trans ha
  rw [shrinkStep_cancel (p := (x, d)) hstep]
  obtain ⟨g1, g2, g3⟩ :=
    foldl_shrinkStep_find_ne (l := l2)
      (s := { l1.foldl Hosts.shrinkStep s with
              items := alInsert (l1.foldl Hosts.shrinkStep s).items x d,
              itemsAdd := alErase (l1.foldl Hosts.shrinkStep s).itemsAdd x,
              itemsDel := alErase (l1.foldl Hosts.shrinkStep s).itemsDel x })
      hkeys.2
  refine ⟨?_, ?_, ?_⟩
  · rw [g1]; exact alFind_alErase_self _ _
  · rw [g2]; exact alFind_alErase_self _ _
  · rw [g3]; exact alFind_alInsert_self _ _ _

lemma shrink_keep_diff {s : Hosts} {x : String} {a d : Host}
    (hwf : WFal s.itemsDel)
    (ha : alFind s.itemsAdd x = some a)
    (hd : alFind s.itemsDel x = some d)
    (hne : a ≠ d) :
    alFind s.Shrink.itemsAdd x = some a
    ∧ alFind s.Shrink.itemsDel x = some d := by
  obtain ⟨l1, l2, hsplit⟩ := List.append_of_mem (alFind_mem hd)
  have hkeys : (∀ p ∈ l1, p.1 ≠ x) ∧ (∀ p ∈ l2, p.1 ≠ x) :=
    keys_split_of_nodup (by rw [← hsplit]; exact hwf)
  unfold Hosts.Shrink
  rw [hsplit, List.foldl_append, List.foldl_cons]
  obtain ⟨e1, e2, e3⟩ := foldl_shrinkStep_find_ne (l := l1) (s := s) hkeys.1
  have hstep : alFind (l1.foldl Hosts.shrinkStep s).itemsAdd x = some a :=
    e1.trans ha
  rw [shrinkStep_ne (p := (x, d)) hstep hne]
  obtain ⟨g1, g2, g3⟩ :=
    foldl_shrinkStep_find_ne (l := l2) (s := l1.foldl Hosts.shrinkStep s) hkeys.2
  exact ⟨g1.trans (e1.trans ha), g2.trans (e2.trans hd)⟩

lemma foldl_shrinkStep_total {l : List (String × Host)} :
    ∀ {s : Hosts}, (alKeys l).Nodup →
    (∀ p ∈ l, alFind s.itemsAdd p.1 = some p.2) →
    WFal s.items →
    WFal (l.foldl Hosts.shrinkStep s).items
    ∧ (∀ p ∈ l, alFind (l.foldl Hosts.shrinkStep s).items p.1 = some p.2)
    ∧ (∀ x, x ∉ alKeys l →
        alFind (l.foldl Hosts.shrinkStep s).items x = alFind s.items x) := by
  induction l with
  | nil =>
    intro s _ _ hwf
    exact ⟨hwf, by simp, fun x _ => rfl⟩
  | cons p t ih =>
    intro s hnd hall hwf
    have hstep : alFind s.itemsAdd p.1 = some p.2 :=
      hall p (List.mem_cons_self _ _)
    rw [List.foldl_cons, shrinkStep_cancel hstep]
    have hnd2 : p.1 ∉ alKeys t ∧ (alKeys t).Nodup :=
      List.nodup_cons.mp (show (p.1 :: alKeys t).Nodup from hnd)
    have hpt : p.1 ∉ alKeys t := hnd2.1
    have hndt : (alKeys t).Nodup := hnd2.2
    have htkeys : ∀ q ∈ t, q.1 ≠ p.1 := by
      intro q hq he
      exact hpt (by rw [← he]; exact List.mem_map.mpr ⟨q, hq, rfl⟩)
    set s1 : Hosts :=
      { s with items := alInsert s.items p.1 p.2,
               itemsAdd := alErase s.itemsAdd p.1,
               itemsDel := alErase s.itemsDel p.1 } with hs1
    have hall1 : ∀ q ∈ t, alFind s1.itemsAdd q.1 = some q.2 := by
      intro q hq
      show alFind (alErase s.itemsAdd p.1) q.1 = some q.2
      rw [alFind_alErase_ne _ (htkeys q hq)]
      exact hall q (List.mem_cons_of_mem _ hq)
    have hwf1 : WFal s1.items := WFal_alInsert _ _ hwf
    obtain ⟨w1, w2, w3⟩ := ih (s := s1) hndt hall1 hwf1
    refine ⟨w1, ?_, ?_⟩
    · intro q hq
      rcases List.mem_cons.mp hq with h1 | h1
      · subst h1
        rw [w3 q.1 hpt]
        show alFind (alInsert s.items q.1 q.2) q.1 = some q.2
        exact alFind_alInsert_self _ _ _
      · exact w2 q h1
    · intro x hx
      have hx1 : x ∉ alKeys t := fun hm => hx (List.mem_cons_of_mem _ hm)
      have hxp : ¬ (p.1 = x) := by
        intro he
        exact hx (by rw [← he]; exact List.mem_cons_self _ _)
      rw [w3 x hx1]
      show alFind (alInsert s.items p.1 p.2) x = alFind s.items x
      exact alFind_alInsert_ne _ _ (Ne.symm hxp)

/-! ## The fresh-host invariant of Acquire/RemoveAll-only cycles -/

lemma freshInv_ext {s : Hosts} {A B : String → Bool}
    (h : freshInv s A) (he : ∀ x, A x = B x) : freshInv s B := by
  obtain ⟨h1, h2, h3, h4, h5, h6⟩ := h
  exact ⟨h1, h2, h3, h4, fun x => (h5 x).trans (he x), fun x => (h6 x).trans (he x)⟩

lemma freshInv_CreateHosts : freshInv CreateHosts (fun _ => false) := by
  refine ⟨WFst_CreateHosts, ?_, ?_, ?_, ?_, ?_⟩ <;>
    intro x <;> simp [CreateHosts, alFind]

lemma freshInv_acquire {s : Hosts} {A : String → Bool} (y : String)
    (h : freshInv s A) :
    freshInv (s.AcquireHost y).2 (fun x => A x || (y == x)) := by
  obtain ⟨hwf, h2, h3, h4, h5, h6⟩ := h
  cases hf : alFind s.items y with
  | some host =>
    rw [AcquireHost_found hf]
    have hAy : A y = true := by
      rw [← h6 y, hf]
      simp
    refine ⟨hwf, h2, h3, h4, ?_, ?_⟩
    · intro x
      show _ = (A x || (y == x))
      by_cases hx : y = x
      · rw [← hx, h5 y, hAy]
        simp
      · have hxy : (y == x) = false := by simpa using hx
        rw [h5 x, hxy]
        simp
    · intro x
      show _ = (A x || (y == x))
      by_cases hx : y = x
      · rw [← hx, h6 y, hAy]
        simp
      · have hxy : (y == x) = false := by simpa using hx
        rw [h6 x, hxy]
        simp
  | none =>
    rw [AcquireHost_new hf]
    refine ⟨⟨WFal_alInsert _ _ hwf.1, WFal_alInsert _ _ hwf.2.1, hwf.2.2⟩,
      ?_, ?_, h4, ?_, ?_⟩
    · intro x hh hfind
      by_cases hx : x = y
      · subst hx
        rw [show alFind (alInsert s.items x (Hosts.createHost x)) x =
              some (Hosts.createHost x) from alFind_alInsert_self _ _ _] at hfind
        exact (Option.some_inj.mp hfind).symm
      · rw [show alFind (alInsert s.items y (Hosts.createHost y)) x =
              alFind s.items x from alFind_alInsert_ne _ _ hx] at hfind
        exact h2 x hh hfind
    · intro x hh hfind
      by_cases hx : x = y
      · subst hx
        rw [show alFind (alInsert s.itemsAdd x (Hosts.createHost x)) x =
              some (Hosts.createHost x) from alFind_alInsert_self _ _ _] at hfind
        exact (Option.some_inj.mp hfind).symm
      · rw [show alFind (alInsert s.itemsAdd y (Hosts.createHost y)) x =
              alFind s.itemsAdd x from alFind_alInsert_ne _ _ hx] at hfind
        exact h3 x hh hfind
    · intro x
      show _ = (A x || (y == x))
      by_cases hx : x = y
      · subst hx
        rw [show alFind (alInsert s.itemsAdd x (Hosts.createHost x)) x =
              some (Hosts.createHost x) from alFind_alInsert_self _ _ _]
        simp
      · rw [show alFind (alInsert s.itemsAdd y (Hosts.createHost y)) x =
              alFind s.itemsAdd x from alFind_alInsert_ne _ _ hx]
        rw [h5 x]
        have hxy : (y == x) = false := by
          simpa using fun he => hx he.symm
        rw [hxy]
        simp
    · intro x
      show _ = (A x || (y == x))
      by_cases hx : x = y
      · subst hx
        rw [show alFind (alInsert s.items x (Hosts.createHost x)) x =
              some (Hosts.createHost x) from alFind_alInsert_self _ _ _]
        simp
      · rw [show alFind (alInsert s.items y (Hosts.createHost y)) x =
              alFind s.items x from alFind_alInsert_ne _ _ hx]
        rw [h6 x]
        have hxy : (y == x) = false := by
          simpa using fun he => hx he.symm
        rw [hxy]
        simp

lemma freshInv_removeOne {s : Hosts} {A : String → Bool} (y : String)
    (h : freshInv s A) : freshInv (s.removeOne y) A := by
  obtain ⟨hwf, h2, h3, h4, h5, h6⟩ := h
  cases hf : alFind s.items y with
  | none => rw [removeOne_none hf]; exact ⟨hwf, h2, h3, h4, h5, h6⟩
  | some item =>
    obtain ⟨e1, e2, e3, _, _⟩ := removeOne_found hf
    have hitem : item = Hosts.createHost y := h2 y item hf
    refine ⟨WFst_removeOne y hwf, ?_, ?_, ?_, ?_, ?_⟩
    · intro x hh hfind
      rw [e1] at hfind
      by_cases hx : x = y
      · subst hx
        rw [alFind_alErase_self] at hfind
        exact absurd hfind (by simp)
      · rw [alFind_alErase_ne _ hx] at hfind
        exact h2 x hh hfind
    · intro x hh hfind
      rw [e2] at hfind
      exact h3 x hh hfind
    · intro x hh hfind
      rw [e3] at hfind
      by_cases hx : x = y
      · subst hx
        rw [alFind_alInsert_self] at hfind
        rw [← Option.some_inj.mp hfind]
        exact hitem
      · rw [alFind_alInsert_ne _ _ hx] at hfind
        exact h4 x hh hfind
    · intro x
      rw [e2]
      exact h5 x
    · intro x
      rw [e1, e3]
      by_cases hx : x = y
      · subst hx
        rw [alFind_alErase_self, alFind_alInsert_self]
        rw [← h6 x, hf]
        simp
      · rw [alFind_alErase_ne _ hx, alFind_alInsert_ne _ _ hx]
        exact h6 x

lemma freshInv_removeAll {s : Hosts} {A : String → Bool} (l : List String)
    (h : freshInv s A) : freshInv (s.RemoveAll l) A := by
  induction l generalizing s with
  | nil => exact h
  | cons y t ih => exact ih (freshInv_removeOne y h)

lemma freshInv_applyOps {ops : List Op} :
    ∀ {s : Hosts} {A : String → Bool},
    (∀ op ∈ ops, op.isAcqRem = true) → freshInv s A →
    freshInv (applyOps s ops) (fun x => A x || acquiredBy ops x) := by
  induction ops with
  | nil =>
    intro s A _ h
    exact freshInv_ext h (fun x => by simp [acquiredBy])
  | cons op t ih =>
    intro s A hops h
    have hop : op.isAcqRem = true := hops op (List.mem_cons_self _ _)
    have ht : ∀ q ∈ t, q.isAcqRem = true :=
      fun q hq => hops q (List.mem_cons_of_mem _ hq)
    have hstep : applyOps s (op :: t) = applyOps (applyOp s op) t := rfl
    rw [hstep]
    cases op with
    | acquire y =>
      have := ih ht (freshInv_acquire y h)
      refine freshInv_ext this (fun x => ?_)
      show ((A x || (y == x)) || acquiredBy t x) =
        (A x || acquiredBy (Op.acquire y :: t) x)
      have : acquiredBy (Op.acquire y :: t) x = ((y == x) || acquiredBy t x) := by
        simp [acquiredBy, opAcquires]
      rw [this, Bool.or_assoc]
    | removeAll l =>
      have := ih ht (freshInv_removeAll l h)
      refine freshInv_ext this (fun x => ?_)
      have : acquiredBy (Op.removeAll l :: t) x = acquiredBy t x := by
        simp [acquiredBy, opAcquires]
      rw [this]
    | setSSL y v => simp [Op.isAcqRem] at hop
    | shrink => simp [Op.isAcqRem] at hop
    | commit => simp [Op.isAcqRem] at hop

lemma shrink_items_total {s : Hosts}
    (hwfD : WFal s.itemsDel) (hwfI : WFal s.items)
    (hall : ∀ p ∈ s.itemsDel, alFind s.itemsAdd p.1 = some p.2) :
    WFal s.Shrink.items
    ∧ ∀ x, (alFind s.Shrink.items x).isSome =
        ((alFind s.items x).isSome || (alFind s.itemsDel x).isSome) := by
  obtain ⟨w1, w2, w3⟩ :=
    foldl_shrinkStep_total (l := s.itemsDel) (s := s) hwfD hall hwfI
  refine ⟨w1, ?_⟩
  intro x
  cases hf : alFind s.itemsDel x with
  | some d =>
    have hmem : (x, d) ∈ s.itemsDel := alFind_mem hf
    have := w2 (x, d) hmem
    show (alFind s.Shrink.items x).isSome = _
    unfold Hosts.Shrink
    rw [this]
    simp
  | none =>
    have hx : x ∉ alKeys s.itemsDel := (alFind_none_iff_not_mem_keys _ _).mp hf
    show (alFind s.Shrink.items x).isSome = _
    unfold Hosts.Shrink
    rw [w3 x hx]
    simp

/-! ## The remove / re-acquire / rebuild pipeline -/

lemma modifyHost_found {s : Hosts} {x : String} {host : Host} (f : Host → Host)
    (h : alFind s.items x = some host) :
    s.modifyHost x f =
      { s with items := alInsert s.items x (f host),
               itemsAdd := alReplace s.itemsAdd x (f host) } := by
  simp [Hosts.modifyHost, h]

lemma alReplace_append {α : Type} (m l : List (String × α)) (k : String) (v : α) :
    alReplace (m ++ l) k v = alReplace m k v ++ alReplace l k v := by
  simp [alReplace]

lemma alReplace_single_self {α : Type} (k : String) (w v : α) :
    alReplace [(k, w)] k v = [(k, v)] := by
  simp [alReplace]

lemma readd_shape {hs0 : Hosts} {x : String} {h : Host} (rebuild : Host → Host)
    (hx : alFind hs0.items x = some h)
    (hxa : alFind hs0.itemsAdd x = none)
    (hxd : alFind hs0.itemsDel x = none) :
    (((hs0.RemoveAll [x]).AcquireHost x).2.modifyHost x rebuild).itemsAdd
      = hs0.itemsAdd ++ [(x, rebuild (Hosts.createHost x))]
    ∧ (((hs0.RemoveAll [x]).AcquireHost x).2.modifyHost x rebuild).itemsDel
      = hs0.itemsDel ++ [(x, h)]
    ∧ alFind (((hs0.RemoveAll [x]).AcquireHost x).2.modifyHost x rebuild).items x
      = some (rebuild (Hosts.createHost x)) := by
  have hs1 : hs0.RemoveAll [x] = hs0.removeOne x := rfl
  obtain ⟨e1, e2, e3, e4, e5⟩ := removeOne_found hx
  have hfind1 : alFind (hs0.RemoveAll [x]).items x = none := by
    rw [hs1, e1]
    exact alFind_alErase_self _ _
  have e6 : (hs0.RemoveAll [x]).AcquireHost x =
      (Hosts.createHost x,
       { hs0.RemoveAll [x] with
         items := alInsert (hs0.RemoveAll [x]).items x (Hosts.createHost x),
         itemsAdd := alInsert (hs0.RemoveAll [x]).itemsAdd x (Hosts.createHost x) }) :=
    AcquireHost_new hfind1
  rw [e6]
  have hfind2 : alFind
      (alInsert (hs0.RemoveAll [x]).items x (Hosts.createHost x)) x =
      some (Hosts.createHost x) := alFind_alInsert_self _ _ _
  have e7 := modifyHost_found (s :=
      { hs0.RemoveAll [x] with
        items := alInsert (hs0.RemoveAll [x]).items x (Hosts.createHost x),
        itemsAdd := alInsert (hs0.RemoveAll [x]).itemsAdd x (Hosts.createHost x) })
    rebuild hfind2
  rw [e7]
  refine ⟨?_, ?_, ?_⟩
  · show alReplace (alInsert (hs0.RemoveAll [x]).itemsAdd x (Hosts.createHost x)) x
      (rebuild (Hosts.createHost x)) = _
    rw [hs1, e2]
    rw [alInsert_of_find_none _ hxa, alReplace_append,
      alReplace_of_find_none _ hxa, alReplace_single_self]
  · show (hs0.RemoveAll [x]).itemsDel = _
    rw [hs1, e3, alInsert_of_find_none _ hxd]
  · exact alFind_alInsert_self _ _ _

/-! ## The commit flag is monotone -/

lemma hasCommit_removeOne {s : Hosts} (x : String) :
    (s.removeOne x).hasCommit = s.hasCommit := by
  cases hf : alFind s.items x with
  | none => rw [removeOne_none hf]
  | some item => exact (removeOne_found hf).2.2.2.2

lemma hasCommit_removeAll {l : List String} : ∀ {s : Hosts},
    (s.RemoveAll l).hasCommit = s.hasCommit := by
  induction l with
  | nil => intro s; rfl
  | cons x t ih =>
    intro s
    exact (ih (s := s.removeOne x)).trans (hasCommit_removeOne x)

lemma hasCommit_shrinkStep {s : Hosts} (p : String × Host) :
    (s.shrinkStep p).hasCommit = s.hasCommit := by
  cases hf : alFind s.itemsAdd p.1 with
  | none => rw [shrinkStep_none hf]
  | some a =>
    by_cases he : a = p.2
    · rw [he] at hf
      rw [shrinkStep_cancel hf]
    · rw [shrinkStep_ne hf he]

lemma hasCommit_shrink {l : List (String × Host)} : ∀ {s : Hosts},
    (l.foldl Hosts.shrinkStep s).hasCommit = s.hasCommit := by
  induction l with
  | nil => intro s; rfl
  | cons p t ih =>
    intro s
    exact (ih (s := s.shrinkStep p)).trans (hasCommit_shrinkStep p)

lemma hasCommit_applyOp {s : Hosts} {op : Op} (h : s.hasCommit = true) :
    (applyOp s op).hasCommit = true := by
  cases op with
  | acquire x =>
    show ((s.AcquireHost x).2).hasCommit = true
    cases hf : alFind s.items x with
    | some host => rw [AcquireHost_found hf]; exact h
    | none => rw [AcquireHost_new hf]; exact h
  | setSSL x v =>
    show (s.setSSLPassthrough x v).hasCommit = true
    cases hf : alFind s.items x with
    | none => rw [setSSL_absent hf]; exact h
    | some host =>
      by_cases he : host.sslPassthrough = v
      · rw [setSSL_noop hf he]; exact h
      · rw [setSSL_found hf he]; exact h
  | removeAll l => exact (hasCommit_removeAll (l := l)).trans h
  | shrink => exact (hasCommit_shrink (l := s.itemsDel)).trans h
  | commit => rfl

/-! ## Claim theorems -/

/-- C1, counterexample: the claim "for every sequence of registry
operations (AcquireHost, SetSSLPassthrough, RemoveAll, Shrink, Commit)
from a fresh registry, `sslPassthroughCount` always equals the number of
hosts in `items` whose `sslPassthrough` flag is true" fails.  Acquire
`"x"`, set its passthrough flag (counter 1), remove it (counter 0), then
`Shrink`: the acquired and removed entries are the same object, so
`reflect.DeepEqual` holds and `h.items[name] = del` restores the flagged
host to `items` without re-incrementing the counter — the counter reads
0 while one host in `items` is flagged. -/
theorem sslCount_invariant_cex :
    (applyOps CreateHosts
        [Op.acquire "x", Op.setSSL "x" true, Op.removeAll ["x"], Op.shrink]).sslPassthroughCount
      ≠ countSSL (applyOps CreateHosts
        [Op.acquire "x", Op.setSSL "x" true, Op.removeAll ["x"], Op.shrink]).items := by
  decide

/-- C1, amended: for every sequence of `AcquireHost`, `SetSSLPassthrough`,
`RemoveAll` and `Commit` operations from a fresh registry — `Shrink`
excluded — `sslPassthroughCount` equals the number of hosts in `items`
whose `sslPassthrough` flag is true.  (`Shrink` can break the invariant
only by restoring a flagged removed host, see the counterexample.) -/
theorem sslCount_invariant_no_shrink (ops : List Op)
    (hops : Op.shrink ∉ ops) :
    (applyOps CreateHosts ops).sslPassthroughCount =
      countSSL (applyOps CreateHosts ops).items :=
  countInv_applyOps hops WFst_CreateHosts rfl

/-- Witness for `sslCount_invariant_no_shrink` at a concrete sequence. -/
theorem sslCount_invariant_no_shrink_witness :
    Op.shrink ∉ [Op.acquire "x", Op.setSSL "x" true, Op.removeAll ["x"]]
    ∧ (applyOps CreateHosts
        [Op.acquire "x", Op.setSSL "x" true, Op.removeAll ["x"]]).sslPassthroughCount =
      countSSL (applyOps CreateHosts
        [Op.acquire "x", Op.setSSL "x" true, Op.removeAll ["x"]]).items :=
  ⟨by decide,
   sslCount_invariant_no_shrink [Op.acquire "x", Op.setSSL "x" true, Op.removeAll ["x"]]
     (by decide)⟩

/-- C2, counterexample: the claim "after Shrink, `items` contains exactly
the net-present hosts; in particular a hostname acquired and then removed
in the same cycle is not in `items` after reconciliation" fails: from a
fresh registry, acquire `"x"`, remove it, `Shrink` — the add/del entries
are the same object, so `Shrink` restores `"x"` to `items` even though
the net effect of the cycle was "absent". -/
theorem items_net_presence_cex :
    alFind (applyOps CreateHosts
        [Op.acquire "x", Op.removeAll ["x"], Op.shrink]).items "x"
      = some (Hosts.createHost "x") := by
  decide

/-- C2, amended: for every sequence of `AcquireHost`/`RemoveAll`
operations from a fresh registry, after `Shrink` the `items` map has
pairwise-distinct keys and contains exactly the hostnames that were
acquired at least once during the cycle (every acquired-and-removed
hostname is restored by `Shrink`, since its add and del snapshots are the
same fresh object). -/
theorem shrink_items_ever_acquired (ops : List Op)
    (hops : ∀ op ∈ ops, op.isAcqRem = true) :
    WFal ((applyOps CreateHosts ops).Shrink).items
    ∧ ∀ x, (alFind ((applyOps CreateHosts ops).Shrink).items x).isSome
        = acquiredBy ops x := by
  have hinv0 := freshInv_applyOps hops freshInv_CreateHosts
  have hinv : freshInv (applyOps CreateHosts ops) (acquiredBy ops) :=
    freshInv_ext hinv0 (fun x => by simp)
  obtain ⟨hwf, h2, h3, h4, h5, h6⟩ := hinv
  have hall : ∀ p ∈ (applyOps CreateHosts ops).itemsDel,
      alFind (applyOps CreateHosts ops).itemsAdd p.1 = some p.2 := by
    intro p hp
    have hfd : alFind (applyOps CreateHosts ops).itemsDel p.1 = some p.2 :=
      alFind_of_mem_WF hwf.2.2 (by rw [Prod.mk.eta]; exact hp)
    have hv : p.2 = Hosts.createHost p.1 := h4 p.1 p.2 hfd
    have hA : acquiredBy ops p.1 = true := by
      rw [← h6 p.1, hfd]
      simp
    have hadd : (alFind (applyOps CreateHosts ops).itemsAdd p.1).isSome = true := by
      rw [h5 p.1, hA]
    obtain ⟨a, ha⟩ := Option.isSome_iff_exists.mp hadd
    have hva : a = Hosts.createHost p.1 := h3 p.1 a ha
    rw [ha, hva, ← hv]
  obtain ⟨w1, w2⟩ := shrink_items_total hwf.2.2 hwf.1 hall
  exact ⟨w1, fun x => (w2 x).trans (h6 x)⟩

/-- Witness for `shrink_items_ever_acquired` at a concrete sequence. -/
theorem shrink_items_ever_acquired_witness :
    (alFind ((applyOps CreateHosts
        [Op.acquire "a", Op.removeAll ["a"]]).Shrink).items "a").isSome
      = acquiredBy [Op.acquire "a", Op.removeAll ["a"]] "a" :=
  (shrink_items_ever_acquired [Op.acquire "a", Op.removeAll ["a"]]
    (by decide)).2 "a"

/-- C3: if a hostname `x` present in `items` (and not currently tracked
in the add/del maps) is removed via `RemoveAll` and then re-acquired and
rebuilt to structurally identical content (`rebuild` applied to the fresh
host yields exactly the removed host `h`), then after `Shrink`, `x` is in
neither `itemsAdd` nor `itemsDel`, `items` maps `x` to that same content,
and — when this was the cycle's only mutation (both tracking maps were
empty) — `Changed` returns `false`. -/
theorem shrink_cancels_identical_readd (hs0 : Hosts) (x : String) (h : Host)
    (rebuild : Host → Host)
    (hWFd : WFal hs0.itemsDel)
    (hx : alFind hs0.items x = some h)
    (hxa : alFind hs0.itemsAdd x = none)
    (hxd : alFind hs0.itemsDel x = none)
    (hre : rebuild (Hosts.createHost x) = h) :
    alFind ((((hs0.RemoveAll [x]).AcquireHost x).2.modifyHost x rebuild).Shrink).itemsAdd x = none
    ∧ alFind ((((hs0.RemoveAll [x]).AcquireHost x).2.modifyHost x rebuild).Shrink).itemsDel x = none
    ∧ alFind ((((hs0.RemoveAll [x]).AcquireHost x).2.modifyHost x rebuild).Shrink).items x = some h
    ∧ (hs0.itemsAdd = [] → hs0.itemsDel = [] →
        ((((hs0.RemoveAll [x]).AcquireHost x).2.modifyHost x rebuild).Shrink).Changed = false) := by
  obtain ⟨r1, r2, r3⟩ := readd_shape rebuild hx hxa hxd
  set s3 := ((hs0.RemoveAll [x]).AcquireHost x).2.modifyHost x rebuild with hs3
  have hadd : alFind s3.itemsAdd x = some h := by
    rw [r1, alFind_append, hxa, hre]
    simp [alFind_singleton]
  have hdel : alFind s3.itemsDel x = some h := by
    rw [r2, alFind_append, hxd]
    simp [alFind_singleton]
  have hwfd3 : WFal s3.itemsDel := by
    rw [r2]
    unfold WFal
    rw [alKeys_append, List.nodup_append]
    refine ⟨hWFd, by simp [alKeys], ?_⟩
    intro a ha hb
    have hax : a = x := by simpa [alKeys] using hb
    rw [hax] at ha
    exact (alFind_none_iff_not_mem_keys _ _).mp hxd ha
  obtain ⟨c1, c2, c3⟩ := shrink_cancel_one hwfd3 hdel hadd
  refine ⟨c1, c2, c3, ?_⟩
  intro ha0 hd0
  have r1s : s3.itemsAdd = [(x, h)] := by
    rw [r1, ha0, hre]
    rfl
  have r2s : s3.itemsDel = [(x, h)] := by
    rw [r2, hd0]
    rfl
  show (s3.itemsDel.foldl Hosts.shrinkStep s3).Changed = false
  rw [r2s, List.foldl_cons, List.foldl_nil]
  have hstep : alFind s3.itemsAdd (x, h).1 = some (x, h).2 := hadd
  rw [shrinkStep_cancel hstep]
  simp [Hosts.Changed, r1s, r2s, alErase]

/-- Witness for `shrink_cancels_identical_readd`: registry with the single
committed host `"x"`, removed and rebuilt identically (`rebuild` the
identity). -/
theorem shrink_cancels_identical_readd_witness :
    alFind (((((CreateHosts.AcquireHost "x").2.Commit.RemoveAll ["x"]).AcquireHost "x").2.modifyHost "x"
        (fun hh => hh)).Shrink).itemsAdd "x" = none
    ∧ alFind (((((CreateHosts.AcquireHost "x").2.Commit.RemoveAll ["x"]).AcquireHost "x").2.modifyHost "x"
        (fun hh => hh)).Shrink).itemsDel "x" = none
    ∧ alFind (((((CreateHosts.AcquireHost "x").2.Commit.RemoveAll ["x"]).AcquireHost "x").2.modifyHost "x"
        (fun hh => hh)).Shrink).items "x" = some (Hosts.createHost "x")
    ∧ (((((CreateHosts.AcquireHost "x").2.Commit.RemoveAll ["x"]).AcquireHost "x").2.modifyHost "x"
        (fun hh => hh)).Shrink).Changed = false := by
  have hmain := shrink_cancels_identical_readd
    (CreateHosts.AcquireHost "x").2.Commit "x" (Hosts.createHost "x")
    (fun hh => hh) (by decide) (by decide) (by decide) (by decide) rfl
  exact ⟨hmain.1, hmain.2.1, hmain.2.2.1, hmain.2.2.2 rfl rfl⟩

/-- C4: in the same remove / re-acquire / rebuild scenario, if the
rebuilt host differs from the removed one in any field (the rebuilt value
`rebuild (createHost x)` is not equal to `h` as a `Host` value — hostname,
TLS config, flags, path list with backend snapshots), then after `Shrink`
the hostname stays in both `itemsAdd` (with the new content) and
`itemsDel` (with the removed content). -/
theorem shrink_keeps_changed_readd (hs0 : Hosts) (x : String) (h : Host)
    (rebuild : Host → Host)
    (hWFd : WFal hs0.itemsDel)
    (hx : alFind hs0.items x = some h)
    (hxa : alFind hs0.itemsAdd x = none)
    (hxd : alFind hs0.itemsDel x = none)
    (hre : rebuild (Hosts.createHost x) ≠ h) :
    alFind ((((hs0.RemoveAll [x]).AcquireHost x).2.modifyHost x rebuild).Shrink).itemsAdd x
      = some (rebuild (Hosts.createHost x))
    ∧ alFind ((((hs0.RemoveAll [x]).AcquireHost x).2.modifyHost x rebuild).Shrink).itemsDel x
      = some h := by
  obtain ⟨r1, r2, r3⟩ := readd_shape rebuild hx hxa hxd
  set s3 := ((hs0.RemoveAll [x]).AcquireHost x).2.modifyHost x rebuild with hs3
  have hadd : alFind s3.itemsAdd x = some (rebuild (Hosts.createHost x)) := by
    rw [r1, alFind_append, hxa]
    simp [alFind_singleton]
  have hdel : alFind s3.itemsDel x = some h := by
    rw [r2, alFind_append, hxd]
    simp [alFind_singleton]
  have hwfd3 : WFal s3.itemsDel := by
    rw [r2]
    unfold WFal
    rw [alKeys_append, List.nodup_append]
    refine ⟨hWFd, by simp [alKeys], ?_⟩
    intro a ha hb
    have hax : a = x := by simpa [alKeys] using hb
    rw [hax] at ha
    exact (alFind_none_iff_not_mem_keys _ _).mp hxd ha
  exact shrink_keep_diff hwfd3 hadd hdel hre

/-- Witness for `shrink_keeps_changed_readd`: the rebuilt host gains one
extra path, so it differs from the removed fresh host. -/
theorem shrink_keeps_changed_readd_witness :
    alFind (((((CreateHosts.AcquireHost "x").2.Commit.RemoveAll ["x"]).AcquireHost "x").2.modifyHost "x"
        (fun hh => hh.AddPath none "/" "begin")).Shrink).itemsAdd "x"
      = some ((Hosts.createHost "x").AddPath none "/" "begin")
    ∧ alFind (((((CreateHosts.AcquireHost "x").2.Commit.RemoveAll ["x"]).AcquireHost "x").2.modifyHost "x"
        (fun hh => hh.AddPath none "/" "begin")).Shrink).itemsDel "x"
      = some (Hosts.createHost "x") :=
  shrink_keeps_changed_readd
    (CreateHosts.AcquireHost "x").2.Commit "x" (Hosts.createHost "x")
    (fun hh => hh.AddPath none "/" "begin")
    (by decide) (by decide) (by decide) (by decide) (by decide)

/-- C5: `AcquireHost` is idempotent within a cycle: on a registry whose
maps hold at most one entry for `x` (always true of reachable states),
the second of two `AcquireHost x` calls returns the same host and the
identical registry state as the first, `items` holds exactly one entry
for `x` after the first call, and `itemsAdd` holds at most one. -/
theorem acquireHost_idempotent (hs : Hosts) (x : String)
    (h1 : countKey hs.items x ≤ 1) (h2 : countKey hs.itemsAdd x ≤ 1) :
    ((hs.AcquireHost x).2.AcquireHost x).1 = (hs.AcquireHost x).1
    ∧ ((hs.AcquireHost x).2.AcquireHost x).2 = (hs.AcquireHost x).2
    ∧ countKey (hs.AcquireHost x).2.items x = 1
    ∧ countKey (hs.AcquireHost x).2.itemsAdd x ≤ 1 := by
  cases hf : alFind hs.items x with
  | some host =>
    have e : hs.AcquireHost x = (host, hs) := AcquireHost_found hf
    rw [e]
    show (hs.AcquireHost x).1 = host ∧ (hs.AcquireHost x).2 = hs
      ∧ countKey hs.items x = 1 ∧ countKey hs.itemsAdd x ≤ 1
    rw [e]
    refine ⟨rfl, rfl, ?_, h2⟩
    have := one_le_countKey_of_find hf
    omega
  | none =>
    set s1 : Hosts :=
      { hs with items := alInsert hs.items x (Hosts.createHost x),
                itemsAdd := alInsert hs.itemsAdd x (Hosts.createHost x) } with hs1
    have e : hs.AcquireHost x = (Hosts.createHost x, s1) := AcquireHost_new hf
    rw [e]
    show (s1.AcquireHost x).1 = Hosts.createHost x ∧ (s1.AcquireHost x).2 = s1
      ∧ countKey s1.items x = 1 ∧ countKey s1.itemsAdd x ≤ 1
    have hfind2 : alFind s1.items x = some (Hosts.createHost x) :=
      alFind_alInsert_self _ _ _
    have e2 : s1.AcquireHost x = (Hosts.createHost x, s1) :=
      AcquireHost_found hfind2
    rw [e2]
    refine ⟨rfl, rfl, ?_, ?_⟩
    · show countKey (alInsert hs.items x (Hosts.createHost x)) x = 1
      rw [alInsert_of_find_none _ hf, countKey_append,
        countKey_eq_zero_of_find_none hf]
      simp [countKey]
    · show countKey (alInsert hs.itemsAdd x (Hosts.createHost x)) x ≤ 1
      cases hfa : alFind hs.itemsAdd x with
      | none =>
        rw [alInsert_of_find_none _ hfa, countKey_append,
          countKey_eq_zero_of_find_none hfa]
        simp [countKey]
      | some w =>
        rw [alInsert_of_find_some _ hfa, countKey_alReplace]
        exact h2

/-- Witness for `acquireHost_idempotent` on the empty registry. -/
theorem acquireHost_idempotent_witness :
    countKey CreateHosts.items "x" ≤ 1
    ∧ (((CreateHosts.AcquireHost "x").2.AcquireHost "x").1 = (CreateHosts.AcquireHost "x").1
       ∧ ((CreateHosts.AcquireHost "x").2.AcquireHost "x").2 = (CreateHosts.AcquireHost "x").2
       ∧ countKey (CreateHosts.AcquireHost "x").2.items "x" = 1
       ∧ countKey (CreateHosts.AcquireHost "x").2.itemsAdd "x" ≤ 1) :=
  ⟨by decide, acquireHost_idempotent CreateHosts "x" (by decide) (by decide)⟩

/-- C6, counterexample: the claim "immediately after each AddPath call
the host's path list is sorted strictly descending by path string" fails
when the same path string is added twice (the core does not deduplicate
paths): after adding `"/"` twice the list holds two equal path strings,
which no strictly-descending order allows. -/
theorem addPath_strict_descending_cex :
    ¬ List.Pairwise (fun a b : HostPath => b.Path < a.Path)
        (((Hosts.createHost "a").AddPath none "/" "begin").AddPath
          none "/" "begin").Paths := by
  have hpaths : (((Hosts.createHost "a").AddPath none "/" "begin").AddPath
      none "/" "begin").Paths
      = [{ Path := "/", Link := { hostname := "a", path := "/" },
           Match := "begin", Backend := error404Backend },
         { Path := "/", Link := { hostname := "a", path := "/" },
           Match := "begin", Backend := error404Backend }] := by
    simp [Host.AddPath, Hosts.createHost, CreatePathLink, List.insertionSort,
      List.orderedInsert, pathGE, error404Backend]
  rw [hpaths]
  intro hcontra
  have hlt := (List.pairwise_cons.mp hcontra).1 _ (List.mem_cons_self _ _)
  exact lt_irrefl _ hlt

/-- C6, amended: immediately after every `AddPath` call the host's path
list is sorted descending by path string, with equal path strings
adjacent (non-increasing order; strictness fails only for duplicated path
strings, see the counterexample).  Since every call fully re-sorts the
list, this holds after each call of any sequence. -/
theorem addPath_sorted_descending (h : Host) (b : Option Backend) (p : String)
    (mt : MatchType) :
    List.Sorted pathGE (h.AddPath b p mt).Paths :=
  List.sorted_insertionSort pathGE _

/-- C7: `BuildSortedItems` returns `none` exactly when `items` holds no
host besides the default-hostname entry; otherwise it returns a non-empty
list that is a permutation of the non-default hosts of `items`, sorted
ascending by hostname. -/
theorem buildSortedItems_spec (hs : Hosts) :
    (hs.BuildSortedItems = none ↔ ∀ p ∈ hs.items, p.1 = DefaultHost)
    ∧ ∀ out, hs.BuildSortedItems = some out →
        (out.Perm ((hs.items.filter (fun p => p.1 != DefaultHost)).map Prod.snd)
         ∧ List.Sorted hostLE out ∧ out ≠ []) := by
  set l := (hs.items.filter (fun p => p.1 != DefaultHost)).map Prod.snd with hl
  set srt := List.insertionSort hostLE l with hsrt
  have hperm : srt.Perm l := List.perm_insertionSort hostLE l
  have hbuild : hs.BuildSortedItems = if srt.isEmpty then none else some srt := rfl
  by_cases he : srt.isEmpty = true
  · rw [hbuild, if_pos he]
    have hsrtnil : srt = [] := by
      cases hsrte : srt with
      | nil => rfl
      | cons a t => rw [hsrte] at he; simp at he
    have hlnil : l = [] := (hsrtnil ▸ hperm).symm.eq_nil
    refine ⟨⟨fun _ p hp => ?_, fun _ => rfl⟩, fun out hout => absurd hout (by simp)⟩
    have hfilter : hs.items.filter (fun q => q.1 != DefaultHost) = [] := by
      have hmapnil : (hs.items.filter (fun q => q.1 != DefaultHost)).map Prod.snd = [] := by
        rw [← hl]
        exact hlnil
      cases hft : hs.items.filter (fun q => q.1 != DefaultHost) with
      | nil => rfl
      | cons a t => rw [hft] at hmapnil; simp at hmapnil
    have := List.filter_eq_nil_iff.mp hfilter p hp
    simpa using this
  · rw [hbuild, if_neg he]
    refine ⟨⟨fun hcontra => absurd hcontra (by simp), fun hall => ?_⟩,
      fun out hout => ?_⟩
    · exfalso
      apply he
      have hfilter : hs.items.filter (fun q => q.1 != DefaultHost) = [] := by
        apply List.filter_eq_nil_iff.mpr
        intro p hp
        simp [hall p hp]
      have hlnil : l = [] := by rw [hl, hfilter]; rfl
      rw [hsrt, hlnil]
      rfl
    · have hosrt : srt = out := Option.some_inj.mp hout
      rw [← hosrt]
      refine ⟨hperm, ?_, ?_⟩
      · rw [hsrt]
        exact List.sorted_insertionSort hostLE l
      · intro hnil
        apply he
        rw [hnil]
        rfl

/-- Witness for `buildSortedItems_spec` on a registry with one
non-default host. -/
theorem buildSortedItems_spec_witness :
    [Hosts.createHost "x"].Perm
      (((CreateHosts.AcquireHost "x").2.items.filter
        (fun p => p.1 != DefaultHost)).map Prod.snd)
    ∧ List.Sorted hostLE [Hosts.createHost "x"]
    ∧ [Hosts.createHost "x"] ≠ [] :=
  (buildSortedItems_spec (CreateHosts.AcquireHost "x").2).2
    [Hosts.createHost "x"] (by decide)

/-- C8: `Commit` empties the added and removed maps and sets the commit
flag, which then stays `true` under every further registry operation; in
the concrete sequence — fresh registry, `Commit`, `AcquireHost "x"`,
`Shrink` — `Changed` is `true`, and `false` after one more `Commit`. -/
theorem commit_contract :
    (∀ hs : Hosts, hs.Commit.itemsAdd = [] ∧ hs.Commit.itemsDel = []
      ∧ hs.Commit.HasCommit = true)
    ∧ (∀ (hs : Hosts) (ops : List Op), hs.HasCommit = true →
        (applyOps hs ops).HasCommit = true)
    ∧ (applyOps CreateHosts [Op.commit]).HasCommit = true
    ∧ (applyOps CreateHosts [Op.commit, Op.acquire "x", Op.shrink]).Changed = true
    ∧ (applyOps CreateHosts
        [Op.commit, Op.acquire "x", Op.shrink, Op.commit]).Changed = false := by
  refine ⟨fun hs => ⟨rfl, rfl, rfl⟩, ?_, by decide, by decide, by decide⟩
  intro hs ops
  induction ops generalizing hs with
  | nil => intro h; exact h
  | cons op t ih =>
    intro h
    exact ih (applyOp hs op) (hasCommit_applyOp h)

/-- Witness for `commit_contract` (the commit flag survives a later
operation). -/
theorem commit_contract_witness :
    CreateHosts.Commit.HasCommit = true
    ∧ (applyOps CreateHosts.Commit [Op.acquire "y"]).HasCommit = true :=
  ⟨rfl, commit_contract.2.1 CreateHosts.Commit [Op.acquire "y"] rfl⟩

/-- C9: no operation signals an error: `FindHost` and `FindPath` return
`none` exactly on a miss, `RemoveAll` of an absent hostname leaves the
registry unchanged, and `AddPath` with a nil backend succeeds, appending
a path bound to the sentinel `_error404` `HostBackend` (the re-sorted
list is a permutation of the old list plus that entry). -/
theorem no_error_signalling :
    (∀ (hs : Hosts) (x : String), (hs.FindHost x = none ↔ ∀ p ∈ hs.items, p.1 ≠ x))
    ∧ (∀ (h : Host) (p : String),
        (h.FindPath p = none ↔ ∀ hp ∈ h.Paths, hp.Path ≠ p))
    ∧ (∀ (hs : Hosts) (x : String), alFind hs.items x = none → hs.RemoveAll [x] = hs)
    ∧ (∀ (h : Host) (p : String) (mt : MatchType),
        (h.AddPath none p mt).Paths.Perm
          (h.Paths ++ [{ Path := p, Link := CreatePathLink h.Hostname p,
                         Match := mt, Backend := error404Backend }])) := by
  refine ⟨?_, ?_, ?_, ?_⟩
  · intro hs x
    exact alFind_eq_none_iff hs.items x
  · intro h p
    constructor
    · intro hnone hp hmem
      have := List.find?_eq_none.mp hnone hp hmem
      simpa using this
    · intro hall
      apply List.find?_eq_none.mpr
      intro q hq
      simpa using hall q hq
  · intro hs x hf
    show hs.removeOne x = hs
    exact removeOne_none hf
  · intro h p mt
    exact List.perm_insertionSort pathGE _

/-- Witness for `no_error_signalling`: removing a hostname absent from
the fresh registry is a no-op. -/
theorem no_error_signalling_witness :
    alFind CreateHosts.items "x" = none
    ∧ CreateHosts.RemoveAll ["x"] = CreateHosts :=
  ⟨rfl, no_error_signalling.2.2.1 CreateHosts "x" rfl⟩

/-- C10: `Commit` touches only the added map, the removed map and the
commit flag: `items` (hence every stored host, its paths and flags) and
`sslPassthroughCount` are unchanged, and every lookup through `FindHost`
gives the same result. -/
theorem commit_frame (hs : Hosts) :
    hs.Commit.items = hs.items
    ∧ hs.Commit.sslPassthroughCount = hs.sslPassthroughCount
    ∧ (∀ x, hs.Commit.FindHost x = hs.FindHost x) :=
  ⟨rfl, rfl, fun _ => rfl⟩

end HAProxy
